import Mathlib

/-!
Verification development for the lazy, chunked, dimension-labeled
multidimensional array engine described in the repository specification.

The repository itself ships only exploratory notebooks
(src/notebooks/exn_intake.ipynb) that call into an external
lazy-array ecosystem; the specification reconstructs the underlying
engine (CoordinateRegistry, ChunkManager, LazyGraph/TaskScheduler,
IndexingEngine, AggregationEngine, ResampleGroupEngine, LabeledArray).
The engine definitions below are therefore modelled from the
specification text; the notebook function cat_to_ds is embedded
directly from the notebook source.
-/

namespace Engine

/-- Modelled from the spec (section 7): the error kinds of the engine.
The implementation is missing from the repository; the kinds are taken
verbatim from the error handling design. -/
inductive EngineError where
  | UnknownDimension
  | KeyNotFound
  | EmptyReduction
  | ShapeMismatch
  | GraphExecutionFailure
  | Cancelled
deriving DecidableEq, Repr

/-! ## ChunkManager -/

/-- Modelled from the spec (section 4.2): splitting one dimension of
length n into chunk extents as close to the target extent as
divisibility allows, with the remainder placed in a final shorter
chunk. The ChunkManager implementation is missing from the repository.
First argument is the target extent, second the dimension length. -/
def splitExtents : Nat → Nat → List Nat
  | _, 0 => []
  | 0, n + 1 => [n + 1]
  | t + 1, n + 1 =>
    if n + 1 ≤ t + 1 then [n + 1]
    else (t + 1) :: splitExtents (t + 1) (n - t)
termination_by _ n => n
decreasing_by simp_wf; omega

/-- Attach ascending offsets to a list of extents, starting at a given
offset: each chunk records its integer offset and its extent. -/
def withOffsets (off : Nat) : List Nat → List (Nat × Nat)
  | [] => []
  | e :: es => (off, e) :: withOffsets (off + e) es

/-- Modelled from the spec (section 4.2): partition of a single
dimension into (offset, extent) chunks. -/
def partitionDim (n target : Nat) : List (Nat × Nat) :=
  withOffsets 0 (splitExtents target n)

namespace ChunkManager

/-- Modelled from the spec (section 4.2):
partition(shape, target_chunk_shape) deterministically splits each
dimension into chunks; the result lists, per dimension, the
(offset, extent) chunks along that dimension. -/
def partition (shape targetChunkShape : List Nat) : List (List (Nat × Nat)) :=
  List.zipWith partitionDim shape targetChunkShape

end ChunkManager

theorem splitExtents_sum (t n : Nat) : (splitExtents t n).sum = n := by
  induction t, n using splitExtents.induct with
  | case1 t => simp [splitExtents]
  | case2 n => simp [splitExtents]
  | case3 t n h => simp [splitExtents, h]
  | case4 t n h ih =>
    simp only [splitExtents, if_neg h, List.sum_cons, ih]
    omega

theorem splitExtents_pos (t n : Nat) : ∀ e ∈ splitExtents t n, 0 < e := by
  induction t, n using splitExtents.induct with
  | case1 t => simp [splitExtents]
  | case2 n => simp [splitExtents]
  | case3 t n h => simp [splitExtents, h]
  | case4 t n h ih =>
    simp only [splitExtents, if_neg h, List.mem_cons]
    rintro e (rfl | he)
    · omega
    · exact ih e he

/-- Closed form of the one-dimensional split for a positive target:
full chunks of the target extent followed by the remainder (if any)
as a final shorter chunk. -/
theorem splitExtents_eq (t n : Nat) (ht : 0 < t) :
    splitExtents t n =
      List.replicate (n / t) t ++ (if n % t = 0 then [] else [n % t]) := by
  induction t, n using splitExtents.induct with
  | case1 t => simp [splitExtents]
  | case2 n => omega
  | case3 t n h =>
    rcases Nat.lt_or_ge (n + 1) (t + 1) with hlt | hge
    · have h1 : (n + 1) / (t + 1) = 0 := Nat.div_eq_of_lt hlt
      have h2 : (n + 1) % (t + 1) = n + 1 := Nat.mod_eq_of_lt hlt
      simp [splitExtents, h, h1, h2]
    · have heq : n + 1 = t + 1 := by omega
      have h1 : (n + 1) / (t + 1) = 1 := by rw [heq]; exact Nat.div_self (by omega)
      have h2 : (n + 1) % (t + 1) = 0 := by rw [heq]; exact Nat.mod_self _
      have hnt : n = t := by omega
      simp [splitExtents, h, h1, h2, hnt]
  | case4 t n h ih =>
    have hih := ih (by omega)
    have hstep : n + 1 = (n - t) + (t + 1) := by omega
    have h1 : (n + 1) / (t + 1) = (n - t) / (t + 1) + 1 := by
      rw [hstep, Nat.add_div_right _ (by omega)]
    have h2 : (n + 1) % (t + 1) = (n - t) % (t + 1) := by
      rw [hstep, Nat.add_mod_right]
    simp only [splitExtents, if_neg h, hih, h1, h2, List.replicate_succ, List.cons_append]

theorem withOffsets_map_snd (off : Nat) (es : List Nat) :
    (withOffsets off es).map Prod.snd = es := by
  induction es generalizing off with
  | nil => rfl
  | cons e es ih => simp [withOffsets, ih]

theorem withOffsets_head (off e : Nat) (es : List Nat) :
    (withOffsets off (e :: es)).head? = some (off, e) := rfl

/-- Consecutive chunks are adjacent: each chunk starts exactly where
the previous one ends (no gap, no overlap). -/
theorem withOffsets_chain (off : Nat) (es : List Nat) :
    (withOffsets off es).Chain' (fun p q => q.1 = p.1 + p.2) := by
  induction es generalizing off with
  | nil => exact List.chain'_nil
  | cons e es ih =>
    cases es with
    | nil => simp [withOffsets]
    | cons e2 es2 =>
      refine List.Chain'.cons ?_ (ih (off + e))
      rfl

theorem partitionDim_map_snd (n t : Nat) :
    (partitionDim n t).map Prod.snd = splitExtents t n := by
  unfold partitionDim
  exact withOffsets_map_snd 0 _

theorem partition_getD (shape tcs : List Nat) (d : Nat)
    (h1 : d < shape.length) (h2 : d < tcs.length) :
    (ChunkManager.partition shape tcs).getD d [] =
      partitionDim (shape.getD d 0) (tcs.getD d 0) := by
  induction shape generalizing tcs d with
  | nil => simp at h1
  | cons s ss ih =>
    cases tcs with
    | nil => simp at h2
    | cons t ts =>
      cases d with
      | zero => rfl
      | succ d =>
        simp only [ChunkManager.partition, List.zipWith_cons_cons, List.getD_cons_succ]
        exact ih ts d (by simpa using h1) (by simpa using h2)

/-- Claim C4: for every shape and target chunk shape (with positive
targets), along each dimension the chunks produced by
ChunkManager.partition have extents summing exactly to the dimension
length, are adjacent (no overlap, no gap: each chunk starts where the
previous ends, and the first chunk starts at offset 0), all extents
are positive, and the extent list is full target-sized chunks followed
by the indivisible remainder as a final shorter chunk (never
dropped). -/
theorem chunk_partition_exact (shape tcs : List Nat) (d : Nat)
    (h1 : d < shape.length) (h2 : d < tcs.length)
    (ht : 0 < tcs.getD d 0) :
    (((ChunkManager.partition shape tcs).getD d []).map Prod.snd).sum = shape.getD d 0 ∧
    ((ChunkManager.partition shape tcs).getD d []).Chain' (fun p q => q.1 = p.1 + p.2) ∧
    (∀ p ∈ ((ChunkManager.partition shape tcs).getD d []).head?, p.1 = 0) ∧
    (∀ p ∈ (ChunkManager.partition shape tcs).getD d [], 0 < p.2) ∧
    ((ChunkManager.partition shape tcs).getD d []).map Prod.snd =
      List.replicate (shape.getD d 0 / tcs.getD d 0) (tcs.getD d 0) ++
        (if shape.getD d 0 % tcs.getD d 0 = 0 then [] else [shape.getD d 0 % tcs.getD d 0]) := by
  rw [partition_getD shape tcs d h1 h2]
  set n := shape.getD d 0
  set t := tcs.getD d 0
  refine ⟨?_, ?_, ?_, ?_, ?_⟩
  · rw [partitionDim_map_snd]; exact splitExtents_sum t n
  · exact withOffsets_chain 0 _
  · unfold partitionDim
    cases splitExtents t n with
    | nil => simp [withOffsets]
    | cons e es => simp [withOffsets]
  · intro p hp
    have : p.2 ∈ (partitionDim n t).map Prod.snd := List.mem_map_of_mem Prod.snd hp
    rw [partitionDim_map_snd] at this
    exact splitExtents_pos t n p.2 this
  · rw [partitionDim_map_snd]; exact splitExtents_eq t n ht

theorem chunk_partition_exact_witness :
    (((ChunkManager.partition [10, 7] [4, 7]).getD 0 []).map Prod.snd).sum = [10, 7].getD 0 0 ∧
    ((ChunkManager.partition [10, 7] [4, 7]).getD 0 []).Chain' (fun p q => q.1 = p.1 + p.2) ∧
    (∀ p ∈ ((ChunkManager.partition [10, 7] [4, 7]).getD 0 []).head?, p.1 = 0) ∧
    (∀ p ∈ (ChunkManager.partition [10, 7] [4, 7]).getD 0 [], 0 < p.2) ∧
    ((ChunkManager.partition [10, 7] [4, 7]).getD 0 []).map Prod.snd =
      List.replicate ([10, 7].getD 0 0 / [4, 7].getD 0 0) ([4, 7].getD 0 0) ++
        (if [10, 7].getD 0 0 % [4, 7].getD 0 0 = 0 then []
         else [[10, 7].getD 0 0 % [4, 7].getD 0 0]) :=
  chunk_partition_exact [10, 7] [4, 7] 0 (by decide) (by decide) (by decide)

/-! ## LazyGraph / TaskScheduler determinism -/

/-- Modelled from the spec (section 4.3): the deterministic pairwise
accumulation rule of the scheduler — partial reductions are always
combined in ascending chunk-offset order, whatever order the worker
pool completed them in. The LazyGraph/TaskScheduler implementation is
missing from the repository. Each partial is paired with its chunk
offset. -/
def accumulateAscending {V : Type} (combine : V → V → V) (init : V)
    (partials : List (Nat × V)) : V :=
  ((partials.insertionSort (fun p q => p.1 ≤ q.1)).map Prod.snd).foldl combine init

/-- Modelled from the spec (sections 4.3 and 5): one run of
execute(graph, targets) for a reduction graph over a fixed chunk
partitioning. The worker pool completes the independent chunk tasks in
some order, given here as the list run (a permutation of the chunk
list determined by worker count and scheduling); node functions are
pure, so each completed task contributes the partial f applied to its
chunk, tagged with the chunk offset; the scheduler then accumulates
the partials in ascending chunk-offset order. -/
def executeRun {α V : Type} (f : α → V) (combine : V → V → V) (init : V)
    (run : List (Nat × α)) : V :=
  accumulateAscending combine init (run.map (fun c => (c.1, f c.2)))

theorem sorted_key_perm_eq {V : Type} (l1 l2 : List (Nat × V))
    (hp : l1.Perm l2)
    (hn : (l1.map Prod.fst).Nodup)
    (hs1 : l1.Sorted (fun p q => p.1 ≤ q.1))
    (hs2 : l2.Sorted (fun p q => p.1 ≤ q.1)) : l1 = l2 := by
  haveI : IsAntisymm (Nat × V) (fun p q => p.1 < q.1) :=
    ⟨fun a b h1 h2 => absurd h2 (lt_asymm h1)⟩
  have hn2 : (l2.map Prod.fst).Nodup := (hp.map Prod.fst).nodup_iff.mp hn
  have strict : ∀ (l : List (Nat × V)), (l.map Prod.fst).Nodup →
      l.Sorted (fun p q => p.1 ≤ q.1) → l.Sorted (fun p q => p.1 < q.1) := by
    intro l hnd hso
    have hne : l.Pairwise (fun p q => p.1 ≠ q.1) := by
      rw [List.Nodup, List.pairwise_map] at hnd
      exact hnd
    exact (hso.and hne).imp (fun h => lt_of_le_of_ne h.1 h.2)
  exact List.eq_of_perm_of_sorted hp (strict l1 hn hs1) (strict l2 hn2 hs2)

/-- Claim C1: for a fixed reduction graph over a fixed chunk
partitioning (a chunk list cs with pairwise distinct chunk offsets),
any two runs of execute — i.e. any two completion orders of the chunk
tasks, whatever worker count or scheduling produced them — give
identical results, because partials are accumulated in ascending
chunk-offset order. -/
theorem execute_deterministic {α V : Type} (f : α → V) (combine : V → V → V)
    (init : V) (cs run1 run2 : List (Nat × α))
    (hn : (cs.map Prod.fst).Nodup)
    (hp1 : run1.Perm cs) (hp2 : run2.Perm cs) :
    executeRun f combine init run1 = executeRun f combine init run2 := by
  haveI : IsTotal (Nat × V) (fun p q => p.1 ≤ q.1) := ⟨fun a b => Nat.le_total a.1 b.1⟩
  haveI : IsTrans (Nat × V) (fun p q => p.1 ≤ q.1) := ⟨fun a b c h1 h2 => le_trans h1 h2⟩
  unfold executeRun accumulateAscending
  set g : Nat × α → Nat × V := fun c => (c.1, f c.2) with hg
  have hkey : ∀ (l : List (Nat × α)), (l.map g).map Prod.fst = l.map Prod.fst := by
    intro l
    rw [List.map_map]
    rfl
  have hperm : (run1.map g).Perm (run2.map g) := (hp1.map g).trans (hp2.map g).symm
  have hsorted1 := List.sorted_insertionSort (fun p q : Nat × V => p.1 ≤ q.1) (run1.map g)
  have hsorted2 := List.sorted_insertionSort (fun p q : Nat × V => p.1 ≤ q.1) (run2.map g)
  have hps : ((run1.map g).insertionSort (fun p q => p.1 ≤ q.1)).Perm
      ((run2.map g).insertionSort (fun p q => p.1 ≤ q.1)) :=
    ((List.perm_insertionSort _ _).trans hperm).trans (List.perm_insertionSort _ _).symm
  have hnod : (((run1.map g).insertionSort (fun p q => p.1 ≤ q.1)).map Prod.fst).Nodup := by
    have : ((run1.map g).map Prod.fst).Nodup := by
      rw [hkey]
      exact ((hp1.map Prod.fst).nodup_iff).mpr hn
    exact (((List.perm_insertionSort _ (run1.map g)).map Prod.fst).nodup_iff).mpr this
  have := sorted_key_perm_eq _ _ hps hnod
    (List.sorted_insertionSort _ _) (List.sorted_insertionSort _ _)
  rw [this]

theorem execute_deterministic_witness :
    executeRun (fun x : Int => x * x) (fun a b => a - b) 100
      [(8, 3), (0, 5), (4, 2)] =
    executeRun (fun x : Int => x * x) (fun a b => a - b) 100
      [(4, 2), (8, 3), (0, 5)] :=
  execute_deterministic (fun x : Int => x * x) (fun a b => a - b) 100
    [(0, 5), (4, 2), (8, 3)] [(8, 3), (0, 5), (4, 2)] [(4, 2), (8, 3), (0, 5)]
    (by decide) (by decide) (by decide)

/-! ## CoordinateRegistry -/

namespace CoordinateRegistry

/-- Modelled from the spec (section 4.1): range(dimension, start, end)
covers the labels whose value lies within [start, end], inclusive at
both endpoints (by value, not by position). The CoordinateRegistry
implementation is missing from the repository; labels are modelled as
integers (e.g. months since the first month of the axis). Returns the
ordered list of selected positions. -/
def labelRange (labels : List Int) (start stop : Int) : List Nat :=
  (List.range labels.length).filter
    (fun i => decide (start ≤ labels.getD i 0 ∧ labels.getD i 0 ≤ stop))

/-- The distance between a label and a query value. -/
def dist (l v : Int) : Nat := (l - v).natAbs

/-- Modelled from the spec (section 4.1): nearest-mode lookup —
the index whose label has minimum distance to the value, ties
resolved to the lower index. none only on an empty label list. -/
def nearestIdx (labels : List Int) (v : Int) : Option Nat :=
  match labels with
  | [] => none
  | l :: ls =>
    match nearestIdx ls v with
    | none => some 0
    | some j => if dist l v ≤ dist (ls.getD j 0) v then some 0 else some (j + 1)

inductive LookupMode where
  | exact
  | nearest

/-- Modelled from the spec (section 4.1): lookup(dimension, value, mode).
Exact mode fails with KeyNotFound if no label equals the value; nearest
mode returns the minimum-distance index. -/
def lookup (labels : List Int) (value : Int) (mode : LookupMode) :
    Except EngineError Nat :=
  match mode with
  | .exact =>
    match labels.findIdx? (fun l => decide (l = value)) with
    | none => .error .KeyNotFound
    | some i => .ok i
  | .nearest =>
    match nearestIdx labels value with
    | none => .error .KeyNotFound
    | some i => .ok i

theorem nearestIdx_eq_none (labels : List Int) (v : Int)
    (h : nearestIdx labels v = none) : labels = [] := by
  cases labels with
  | nil => rfl
  | cons l ls =>
    cases hrec : nearestIdx ls v with
    | none =>
      simp only [nearestIdx, hrec] at h
      exact Option.noConfusion h
    | some j =>
      simp only [nearestIdx, hrec] at h
      by_cases hc : dist l v ≤ dist (ls.getD j 0) v
      · rw [if_pos hc] at h
        exact Option.noConfusion h
      · rw [if_neg hc] at h
        exact Option.noConfusion h

theorem nearestIdx_spec (labels : List Int) (v : Int) :
    ∀ i, nearestIdx labels v = some i →
      i < labels.length ∧
      (∀ j, j < labels.length →
        dist (labels.getD i 0) v ≤ dist (labels.getD j 0) v) ∧
      (∀ j, j < labels.length →
        dist (labels.getD j 0) v = dist (labels.getD i 0) v → i ≤ j) := by
  induction labels with
  | nil => intro i h; simp [nearestIdx] at h
  | cons l ls ih =>
    intro i h
    cases hrec : nearestIdx ls v with
    | none =>
      have hnil : ls = [] := nearestIdx_eq_none ls v hrec
      simp only [nearestIdx, hrec, Option.some.injEq] at h
      subst h
      subst hnil
      refine ⟨by simp, ?_, ?_⟩
      · intro j hj
        have hj0 : j = 0 := by
          simp only [List.length_cons, List.length_nil] at hj
          omega
        subst hj0
        exact le_refl _
      · intro j hj heq
        omega
    | some j =>
      simp only [nearestIdx, hrec] at h
      obtain ⟨hjlt, hjmin, hjtie⟩ := ih j hrec
      by_cases hc : dist l v ≤ dist (ls.getD j 0) v
      · rw [if_pos hc] at h
        simp only [Option.some.injEq] at h
        subst h
        refine ⟨by simp, ?_, ?_⟩
        · intro k hk
          cases k with
          | zero => exact le_refl _
          | succ k =>
            simp only [List.getD_cons_zero, List.getD_cons_succ]
            exact le_trans hc (hjmin k (by simpa using hk))
        · intro k hk heq
          omega
      · rw [if_neg hc] at h
        simp only [Option.some.injEq] at h
        subst h
        refine ⟨by simpa using hjlt, ?_, ?_⟩
        · intro k hk
          cases k with
          | zero =>
            simp only [List.getD_cons_zero, List.getD_cons_succ]
            omega
          | succ k =>
            simp only [List.getD_cons_succ]
            exact hjmin k (by simpa using hk)
        · intro k hk heq
          cases k with
          | zero =>
            simp only [List.getD_cons_zero, List.getD_cons_succ] at heq
            omega
          | succ k =>
            simp only [List.getD_cons_succ] at heq
            have := hjtie k (by simpa using hk) heq
            omega

end CoordinateRegistry

/-- Claim C2: label-range selection is inclusive at both endpoints —
a position is selected exactly when its label value lies in
[start, stop] — and on a dimension with a monotonic (sorted) label
sequence the selected positions form an interval of indices: every
position lying between two selected positions is itself selected. -/
theorem range_inclusive_interval (labels : List Int) (start stop : Int)
    (hs : labels.Sorted (· ≤ ·)) :
    (∀ i, i ∈ CoordinateRegistry.labelRange labels start stop ↔
      i < labels.length ∧ start ≤ labels.getD i 0 ∧ labels.getD i 0 ≤ stop) ∧
    (∀ i j k, i ≤ j → j ≤ k →
      i ∈ CoordinateRegistry.labelRange labels start stop →
      k ∈ CoordinateRegistry.labelRange labels start stop →
      j ∈ CoordinateRegistry.labelRange labels start stop) := by
  have hmem : ∀ i, i ∈ CoordinateRegistry.labelRange labels start stop ↔
      i < labels.length ∧ start ≤ labels.getD i 0 ∧ labels.getD i 0 ≤ stop := by
    intro i
    unfold CoordinateRegistry.labelRange
    simp [List.mem_filter, List.mem_range, and_assoc]
  refine ⟨hmem, ?_⟩
  intro i j k hij hjk hi hk
  obtain ⟨hilt, hist, _⟩ := (hmem i).mp hi
  obtain ⟨hklt, _, hke⟩ := (hmem k).mp hk
  have hjlt : j < labels.length := lt_of_le_of_lt hjk hklt
  have hmono : ∀ (a b : Nat) (ha : a < labels.length) (hb : b < labels.length),
      a ≤ b → labels.getD a 0 ≤ labels.getD b 0 := by
    intro a b ha hb hab
    rw [List.getD_eq_getElem labels 0 ha, List.getD_eq_getElem labels 0 hb]
    exact hs.rel_get_of_le hab
  refine (hmem j).mpr ⟨hjlt, ?_, ?_⟩
  · exact le_trans hist (hmono i j hilt hjlt hij)
  · exact le_trans (hmono j k hjlt hklt hjk) hke

theorem range_inclusive_interval_witness :
    (CoordinateRegistry.labelRange ((List.range 12).map Int.ofNat) 0 2).length = 3 ∧
    (∀ i, i ∈ CoordinateRegistry.labelRange ((List.range 12).map Int.ofNat) 0 2 ↔
      i < ((List.range 12).map Int.ofNat).length ∧
      0 ≤ ((List.range 12).map Int.ofNat).getD i 0 ∧
      ((List.range 12).map Int.ofNat).getD i 0 ≤ 2) ∧
    (∀ i j k, i ≤ j → j ≤ k →
      i ∈ CoordinateRegistry.labelRange ((List.range 12).map Int.ofNat) 0 2 →
      k ∈ CoordinateRegistry.labelRange ((List.range 12).map Int.ofNat) 0 2 →
      j ∈ CoordinateRegistry.labelRange ((List.range 12).map Int.ofNat) 0 2) := by
  have h := range_inclusive_interval ((List.range 12).map Int.ofNat) 0 2 (by decide)
  exact ⟨by decide, h.1, h.2⟩

/-- Claim C6: nearest-mode lookup returns the index whose label has
minimum distance to the query value, resolving ties to the lower
index; it succeeds on every nonempty label list. -/
theorem lookup_nearest_min (labels : List Int) (v : Int) (h : labels ≠ []) :
    ∃ i, CoordinateRegistry.lookup labels v .nearest = .ok i ∧
      i < labels.length ∧
      (∀ j, j < labels.length →
        CoordinateRegistry.dist (labels.getD i 0) v ≤
          CoordinateRegistry.dist (labels.getD j 0) v) ∧
      (∀ j, j < labels.length →
        CoordinateRegistry.dist (labels.getD j 0) v =
          CoordinateRegistry.dist (labels.getD i 0) v → i ≤ j) := by
  cases hrec : CoordinateRegistry.nearestIdx labels v with
  | none => exact absurd (CoordinateRegistry.nearestIdx_eq_none labels v hrec) h
  | some i =>
    obtain ⟨h1, h2, h3⟩ := CoordinateRegistry.nearestIdx_spec labels v i hrec
    refine ⟨i, ?_, h1, h2, h3⟩
    simp [CoordinateRegistry.lookup, hrec]

theorem lookup_nearest_min_witness :
    CoordinateRegistry.lookup [10, 20, 30] 21 .nearest = .ok 1 ∧
    CoordinateRegistry.lookup [10, 20, 30] 25 .nearest = .ok 1 ∧
    (∃ i, CoordinateRegistry.lookup [10, 20, 30] 25 .nearest = .ok i ∧
      i < ([10, 20, 30] : List Int).length ∧
      (∀ j, j < ([10, 20, 30] : List Int).length →
        CoordinateRegistry.dist (([10, 20, 30] : List Int).getD i 0) 25 ≤
          CoordinateRegistry.dist (([10, 20, 30] : List Int).getD j 0) 25) ∧
      (∀ j, j < ([10, 20, 30] : List Int).length →
        CoordinateRegistry.dist (([10, 20, 30] : List Int).getD j 0) 25 =
          CoordinateRegistry.dist (([10, 20, 30] : List Int).getD i 0) 25 → i ≤ j)) :=
  ⟨rfl, rfl, lookup_nearest_min [10, 20, 30] 25 (by decide)⟩

/-! ## LabeledArray, IndexingEngine, AggregationEngine -/

/-- Modelled from the spec (sections 2 and 3): a LabeledArray view of
a single labeled dimension — the dimension name, the coordinate label
per position, and the data value per position. The LabeledArray
implementation is missing from the repository. -/
structure LabeledArray1 where
  dim : String
  labels : List Int
  data : List ℚ

namespace IndexingEngine

/-- Modelled from the spec (section 4.4): label-based selection of an
inclusive label range on a named dimension. Naming a dimension the
array lacks fails with UnknownDimension; a selection matching no
labels succeeds with a zero-length dimension. -/
def select (a : LabeledArray1) (d : String) (start stop : Int) :
    Except EngineError LabeledArray1 :=
  if d = a.dim then
    let pairs := (a.labels.zip a.data).filter
      (fun p => decide (start ≤ p.1 ∧ p.1 ≤ stop))
    .ok ⟨a.dim, pairs.map Prod.fst, pairs.map Prod.snd⟩
  else .error .UnknownDimension

/-- Modelled from the spec (section 4.4): positional selection —
gathers positions directly, bypassing the CoordinateRegistry. -/
def iselect (a : LabeledArray1) (idxs : List Nat) : LabeledArray1 :=
  ⟨a.dim, idxs.map (fun i => a.labels.getD i 0),
    idxs.map (fun i => a.data.getD i 0)⟩

end IndexingEngine

inductive ReduceOp where
  | mean
  | min
  | max
  | sum
  | count

namespace AggregationEngine

/-- Modelled from the spec (section 4.5): reduce over all elements.
Reducing zero elements fails with EmptyReduction for min/max/mean;
sum of empty is 0; count of empty is 0. -/
def reduce (op : ReduceOp) (xs : List ℚ) : Except EngineError ℚ :=
  match op with
  | .sum => .ok xs.sum
  | .count => .ok xs.length
  | .mean =>
    match xs with
    | [] => .error .EmptyReduction
    | _ :: _ => .ok (xs.sum / xs.length)
  | .min =>
    match xs with
    | [] => .error .EmptyReduction
    | y :: ys => .ok (ys.foldl Min.min y)
  | .max =>
    match xs with
    | [] => .error .EmptyReduction
    | y :: ys => .ok (ys.foldl Max.max y)

end AggregationEngine

theorem filter_zip_snd (p : Int → Bool) :
    ∀ (ls : List Int) (ds : List ℚ), ls.length = ds.length →
      (((ls.zip ds).filter (fun q => p q.1)).map Prod.snd) =
        (((List.range ls.length).filter (fun i => p (ls.getD i 0))).map
          (fun i => ds.getD i 0)) := by
  intro ls
  induction ls with
  | nil => intro ds h; simp
  | cons l ls ih =>
    intro ds h
    cases ds with
    | nil => simp at h
    | cons d ds =>
      have hlen : ls.length = ds.length := by simpa using h
      have hrec := ih ds hlen
      cases hp : p l with
      | true =>
        simp only [List.zip_cons_cons, List.filter_cons, hp, if_true,
          List.map_cons, List.length_cons, List.range_succ_eq_map,
          List.getD_cons_zero, List.getD_cons_succ, List.filter_map,
          List.map_map, Function.comp, Nat.succ_eq_add_one]
        exact congrArg (d :: ·) hrec
      | false =>
        simp only [List.zip_cons_cons, List.filter_cons, hp,
          Bool.false_eq_true, if_false, List.length_cons,
          List.range_succ_eq_map, List.getD_cons_zero, List.getD_cons_succ,
          List.filter_map, List.map_map, Function.comp, Nat.succ_eq_add_one]
        exact hrec

/-- Claim C8: label-based and positional selection are consistent —
selecting a label range succeeds, and its materialized values are
identical to iselect applied at the corresponding resolved positions,
which in turn is exactly the direct positional slice of the original
data. -/
theorem select_iselect_consistent (a : LabeledArray1) (start stop : Int)
    (hlen : a.labels.length = a.data.length) :
    ∃ r, IndexingEngine.select a a.dim start stop = .ok r ∧
      r.data = (IndexingEngine.iselect a
        (CoordinateRegistry.labelRange a.labels start stop)).data ∧
      r.data = (CoordinateRegistry.labelRange a.labels start stop).map
        (fun i => a.data.getD i 0) := by
  have hsel : IndexingEngine.select a a.dim start stop =
      .ok ⟨a.dim,
        ((a.labels.zip a.data).filter
          (fun p => decide (start ≤ p.1 ∧ p.1 ≤ stop))).map Prod.fst,
        ((a.labels.zip a.data).filter
          (fun p => decide (start ≤ p.1 ∧ p.1 ≤ stop))).map Prod.snd⟩ := by
    simp [IndexingEngine.select]
  have hdata : ((a.labels.zip a.data).filter
      (fun p => decide (start ≤ p.1 ∧ p.1 ≤ stop))).map Prod.snd =
      (CoordinateRegistry.labelRange a.labels start stop).map
        (fun i => a.data.getD i 0) :=
    filter_zip_snd (fun l => decide (start ≤ l ∧ l ≤ stop)) a.labels a.data hlen
  exact ⟨_, hsel, hdata, hdata⟩

theorem select_iselect_consistent_witness :
    ∃ r, IndexingEngine.select ⟨"time", [0, 1, 2], [5, 7, 9]⟩ "time" 1 2 = .ok r ∧
      r.data = (IndexingEngine.iselect ⟨"time", [0, 1, 2], [5, 7, 9]⟩
        (CoordinateRegistry.labelRange [0, 1, 2] 1 2)).data ∧
      r.data = (CoordinateRegistry.labelRange [0, 1, 2] 1 2).map
        (fun i => ([5, 7, 9] : List ℚ).getD i 0) :=
  select_iselect_consistent ⟨"time", [0, 1, 2], [5, 7, 9]⟩ 1 2 (by decide)

/-- Claim C3: a selection matching zero labels succeeds with a
zero-length dimension (not an error); reducing the resulting zero
elements fails with EmptyReduction for mean, min and max, while sum
of the empty result is 0 and count of the empty result is 0. -/
theorem empty_selection_reduce (a : LabeledArray1) (start stop : Int)
    (hempty : ∀ l ∈ a.labels, ¬(start ≤ l ∧ l ≤ stop)) :
    ∃ r, IndexingEngine.select a a.dim start stop = .ok r ∧
      r.labels.length = 0 ∧ r.data.length = 0 ∧
      AggregationEngine.reduce .mean r.data = .error .EmptyReduction ∧
      AggregationEngine.reduce .min r.data = .error .EmptyReduction ∧
      AggregationEngine.reduce .max r.data = .error .EmptyReduction ∧
      AggregationEngine.reduce .sum r.data = .ok 0 ∧
      AggregationEngine.reduce .count r.data = .ok 0 := by
  have hfil : (a.labels.zip a.data).filter
      (fun p => decide (start ≤ p.1 ∧ p.1 ≤ stop)) = [] := by
    rw [List.filter_eq_nil_iff]
    intro p hp
    have hmem := List.of_mem_zip (a := p.1) (b := p.2) (by simpa using hp)
    simpa using hempty p.1 hmem.1
  refine ⟨⟨a.dim, [], []⟩, ?_, rfl, rfl, rfl, rfl, rfl, rfl, ?_⟩
  · simp only [IndexingEngine.select, if_pos rfl, hfil, List.map_nil]
    simp
  · simp [AggregationEngine.reduce]

theorem empty_selection_reduce_witness :
    ∃ r, IndexingEngine.select ⟨"time", [0, 1, 2], [5, 7, 9]⟩ "time" 10 20 = .ok r ∧
      r.labels.length = 0 ∧ r.data.length = 0 ∧
      AggregationEngine.reduce .mean r.data = .error .EmptyReduction ∧
      AggregationEngine.reduce .min r.data = .error .EmptyReduction ∧
      AggregationEngine.reduce .max r.data = .error .EmptyReduction ∧
      AggregationEngine.reduce .sum r.data = .ok 0 ∧
      AggregationEngine.reduce .count r.data = .ok 0 :=
  empty_selection_reduce ⟨"time", [0, 1, 2], [5, 7, 9]⟩ 10 20 (by decide)

/-! ## ResampleGroupEngine: resample -/

namespace ResampleGroupEngine

/-- Modelled from the spec (section 4.6): bucket a coordinate sequence
into consecutive groups of equal derived key, in coordinate order;
a new group starts exactly when the key changes. The
ResampleGroupEngine implementation is missing from the repository. -/
def groupRuns {α β : Type} (key : α → β) [DecidableEq β] : List α → List (β × List α)
  | [] => []
  | x :: xs =>
    match groupRuns key xs with
    | [] => [(key x, [x])]
    | (k, g) :: rest =>
      if key x = k then (k, x :: g) :: rest
      else (key x, [x]) :: (k, g) :: rest

/-- Modelled from the spec (section 4.6): resample(array, dim, period)
on a time dimension whose coordinates are months since the epoch;
a period of m months sends coordinate t to period t / m (yearly:
m = 12). -/
def resample (coords : List Nat) (monthsPerPeriod : Nat) : List (Nat × List Nat) :=
  groupRuns (fun t => t / monthsPerPeriod) coords

/-- Modelled from the spec (section 4.6): resample followed by a mean
reduction per group of the cell values f at the grouped coordinates. -/
def resampleMean (coords : List Nat) (monthsPerPeriod : Nat) (f : Nat → ℚ) :
    List (Nat × ℚ) :=
  (resample coords monthsPerPeriod).map
    (fun g => (g.1, (g.2.map f).sum / (g.2.length : ℚ)))

theorem groupRuns_eq_nil {α β : Type} (key : α → β) [DecidableEq β]
    (xs : List α) (h : groupRuns key xs = []) : xs = [] := by
  cases xs with
  | nil => rfl
  | cons x xs =>
    cases hrec : groupRuns key xs with
    | nil =>
      simp only [groupRuns, hrec] at h
      exact List.noConfusion h
    | cons p rest =>
      obtain ⟨k, g⟩ := p
      simp only [groupRuns, hrec] at h
      by_cases hc : key x = k
      · rw [if_pos hc] at h
        exact List.noConfusion h
      · rw [if_neg hc] at h
        exact List.noConfusion h

theorem groupRuns_flatten {α β : Type} (key : α → β) [DecidableEq β] :
    ∀ xs : List α, ((groupRuns key xs).map Prod.snd).flatten = xs := by
  intro xs
  induction xs with
  | nil => rfl
  | cons x xs ih =>
    cases hrec : groupRuns key xs with
    | nil =>
      have := groupRuns_eq_nil key xs hrec
      subst this
      simp [groupRuns]
    | cons p rest =>
      obtain ⟨k, g⟩ := p
      rw [hrec] at ih
      by_cases hc : key x = k
      · simp only [groupRuns, hrec, if_pos hc, List.map_cons, List.flatten_cons,
          List.cons_append]
        simp only [List.map_cons, List.flatten_cons] at ih
        rw [ih]
      · simp only [groupRuns, hrec, if_neg hc, List.map_cons, List.flatten_cons,
          List.singleton_append]
        simp only [List.map_cons, List.flatten_cons] at ih
        rw [ih]

theorem groupRuns_members {α β : Type} (key : α → β) [DecidableEq β] :
    ∀ xs : List α, ∀ p ∈ groupRuns key xs, p.2 ≠ [] ∧ ∀ a ∈ p.2, key a = p.1 := by
  intro xs
  induction xs with
  | nil => intro p hp; simp [groupRuns] at hp
  | cons x xs ih =>
    intro p hp
    cases hrec : groupRuns key xs with
    | nil =>
      have := groupRuns_eq_nil key xs hrec
      subst this
      simp only [groupRuns, List.mem_singleton] at hp
      subst hp
      refine ⟨by simp, ?_⟩
      intro a ha
      simp only [List.mem_singleton] at ha
      subst ha
      rfl
    | cons q rest =>
      obtain ⟨k, g⟩ := q
      rw [hrec] at ih
      simp only [groupRuns, hrec] at hp
      by_cases hc : key x = k
      · rw [if_pos hc] at hp
        rcases List.mem_cons.mp hp with heq | hmem
        · subst heq
          have hkg := ih (k, g) (List.mem_cons_self _ _)
          refine ⟨by simp, ?_⟩
          intro a ha
          rcases List.mem_cons.mp ha with rfl | ha2
          · exact hc
          · exact hkg.2 a ha2
        · exact ih p (List.mem_cons_of_mem _ hmem)
      · rw [if_neg hc] at hp
        rcases List.mem_cons.mp hp with heq | hmem
        · subst heq
          refine ⟨by simp, ?_⟩
          intro a ha
          rcases List.mem_cons.mp ha with rfl | ha2
          · rfl
          · simp at ha2
        · exact ih p hmem

theorem groupRuns_head_key {α β : Type} (key : α → β) [DecidableEq β]
    (x : α) (xs : List α) :
    ((groupRuns key (x :: xs)).map Prod.fst).head? = some (key x) := by
  cases hrec : groupRuns key xs with
  | nil => simp [groupRuns, hrec]
  | cons q rest =>
    obtain ⟨k, g⟩ := q
    by_cases hc : key x = k
    · simp [groupRuns, hrec, if_pos hc, hc]
    · simp [groupRuns, hrec, if_neg hc]

/-- For an ascending coordinate sequence and a monotone key, the run
keys are strictly increasing: every coordinate belonging to a period
lands in that period's single contiguous group, and each new group
starts exactly at the first coordinate crossing into a later
period. -/
theorem groupRuns_keys_chain (key : Nat → Nat)
    (hmono : ∀ a b : Nat, a ≤ b → key a ≤ key b) :
    ∀ xs : List Nat, xs.Chain' (· ≤ ·) →
      ((groupRuns key xs).map Prod.fst).Chain' (· < ·) := by
  intro xs
  induction xs with
  | nil => intro h; simp [groupRuns]
  | cons x xs ih =>
    intro hch
    have htail : xs.Chain' (· ≤ ·) := hch.tail
    have ihres := ih htail
    cases hrec : groupRuns key xs with
    | nil =>
      have := groupRuns_eq_nil key xs hrec
      subst this
      simp [groupRuns]
    | cons q rest =>
      obtain ⟨k, g⟩ := q
      have hgpos : key x = k → groupRuns key (x :: xs) = (k, x :: g) :: rest := by
        intro hc
        simp only [groupRuns, hrec, if_pos hc]
      have hgneg : ¬key x = k →
          groupRuns key (x :: xs) = (key x, [x]) :: (k, g) :: rest := by
        intro hc
        simp only [groupRuns, hrec, if_neg hc]
      have hne : xs ≠ [] := by
        intro h
        subst h
        simp only [groupRuns] at hrec
        exact List.noConfusion hrec
      obtain ⟨y, ys, rfl⟩ := List.exists_cons_of_ne_nil hne
      have hh := groupRuns_head_key key y ys
      rw [hrec] at hh
      have hhead : k = key y := by simpa using hh
      rw [hrec] at ihres
      have hxy : x ≤ y := (List.chain'_cons.mp hch).1
      by_cases hc : key x = k
      · rw [hgpos hc, List.map_cons]
        simpa using ihres
      · rw [hgneg hc, List.map_cons]
        refine List.chain'_cons.mpr ⟨?_, by simpa using ihres⟩
        have hle : key x ≤ k := by
          rw [hhead]
          exact hmono x y hxy
        exact lt_of_le_of_ne hle hc

end ResampleGroupEngine

/-- Claim C5: for an array whose resample dimension has ascending
coordinates, resample produces groups that are consecutive, contiguous
ranges in coordinate order — concatenating the groups gives back the
coordinate sequence, every group is nonempty and uniform in its period
key, and the period keys are strictly increasing, so each group
boundary is the first coordinate crossing into the next period. -/
theorem resample_contiguous (coords : List Nat) (hs : coords.Chain' (· ≤ ·)) :
    (((ResampleGroupEngine.resample coords 12).map Prod.snd).flatten = coords) ∧
    (∀ p ∈ ResampleGroupEngine.resample coords 12,
      p.2 ≠ [] ∧ ∀ t ∈ p.2, t / 12 = p.1) ∧
    ((ResampleGroupEngine.resample coords 12).map Prod.fst).Sorted (· < ·) := by
  refine ⟨ResampleGroupEngine.groupRuns_flatten _ coords, ?_, ?_⟩
  · intro p hp
    exact ResampleGroupEngine.groupRuns_members _ coords p hp
  · rw [List.Sorted, ← List.chain'_iff_pairwise]
    exact ResampleGroupEngine.groupRuns_keys_chain (fun t => t / 12)
      (fun a b h => Nat.div_le_div_right h) coords hs

/-- Deterministic synthetic cell values for the end-to-end resample
scenario: a 24-month time axis over a 4 x 4 lat/lon grid. -/
def sampleCell (t la lo : Nat) : ℚ := (t * t + 3 * la + lo + 1 : ℚ)

theorem resample_contiguous_witness :
    ((((ResampleGroupEngine.resample (List.range 24) 12).map Prod.snd).flatten =
        List.range 24) ∧
      (∀ p ∈ ResampleGroupEngine.resample (List.range 24) 12,
        p.2 ≠ [] ∧ ∀ t ∈ p.2, t / 12 = p.1) ∧
      ((ResampleGroupEngine.resample (List.range 24) 12).map Prod.fst).Sorted (· < ·)) ∧
    (ResampleGroupEngine.resample (List.range 24) 12).length = 2 ∧
    (∀ la < 4, ∀ lo < 4,
      ResampleGroupEngine.resampleMean (List.range 24) 12
          (fun t => sampleCell t la lo) =
        [(0, ((List.range 12).map (fun t => sampleCell t la lo)).sum / 12),
         (1, ((List.range 12).map (fun t => sampleCell (t + 12) la lo)).sum / 12)]) := by
  have hchain : (List.range 24).Chain' (· ≤ ·) := by
    rw [List.chain'_iff_pairwise]
    exact (List.pairwise_lt_range 24).imp le_of_lt
  have hgroups : ResampleGroupEngine.resample (List.range 24) 12 =
      [(0, List.range 12), (1, (List.range 12).map (· + 12))] := by decide
  refine ⟨resample_contiguous (List.range 24) hchain, ?_, ?_⟩
  · rw [hgroups]
    rfl
  · intro la _ lo _
    simp only [ResampleGroupEngine.resampleMean, hgroups, List.map_cons,
      List.map_nil, List.map_map, Function.comp, List.length_range,
      List.length_map, Nat.cast_ofNat]
    rfl

/-! ## ResampleGroupEngine: group_by -/

namespace ResampleGroupEngine

/-- Add one element under its derived key to an accumulated group
list, keeping the existing key order and appending a new key at the
end on first sight. -/
def addToGroup {α β : Type} [DecidableEq β] (k : β) (x : α) :
    List (β × List α) → List (β × List α)
  | [] => [(k, [x])]
  | (k2, g) :: rest =>
    if k = k2 then (k2, g ++ [x]) :: rest
    else (k2, g) :: addToGroup k x rest

/-- Modelled from the spec (section 4.6): group_by(array, dim, key_fn)
buckets values by an arbitrary derived key; group membership is
gathered by key equality and group iteration order is by first-seen
key. -/
def group_by {α β : Type} [DecidableEq β] (key : α → β) (xs : List α) :
    List (β × List α) :=
  xs.foldl (fun acc x => addToGroup (key x) x acc) []

/-- The keys of a sequence in first-seen order: the order in which
distinct keys first occur along the source dimension. -/
def insertNew {β : Type} [DecidableEq β] (k : β) (ks : List β) : List β :=
  if k ∈ ks then ks else ks ++ [k]

def firstSeenKeys {α β : Type} [DecidableEq β] (key : α → β) (xs : List α) :
    List β :=
  xs.foldl (fun ks x => insertNew (key x) ks) []

/-- Modelled from the spec (section 4.6): when the caller supplies an
explicit ordering, the output dimension carries one entry per
requested group key, in the supplied order. -/
def reindex {α β : Type} [DecidableEq β] (order : List β)
    (gs : List (β × List α)) : List (β × List α) :=
  order.map (fun k => (k, ((gs.find? (fun p => decide (p.1 = k))).map Prod.snd).getD []))

/-- Modelled from the spec (section 9): the fixed season-to-month
mapping DJF/MAM/JJA/SON; months are counted from January = 0. -/
def seasonOf (m : Nat) : String :=
  if m % 12 ≤ 1 ∨ m % 12 = 11 then "DJF"
  else if m % 12 ≤ 4 then "MAM"
  else if m % 12 ≤ 7 then "JJA"
  else "SON"

theorem addToGroup_map_fst {α β : Type} [DecidableEq β] (k : β) (x : α) :
    ∀ gs : List (β × List α),
      (addToGroup k x gs).map Prod.fst = insertNew k (gs.map Prod.fst) := by
  intro gs
  induction gs with
  | nil => simp [addToGroup, insertNew]
  | cons q rest ih =>
    obtain ⟨k2, g⟩ := q
    by_cases hc : k = k2
    · subst hc
      simp [addToGroup, insertNew]
    · simp only [addToGroup, if_neg hc, List.map_cons, ih, insertNew,
        List.mem_cons]
      by_cases hmem : k ∈ rest.map Prod.fst
      · simp [hmem, hc]
      · simp [hmem, hc]

theorem group_by_fold_fst {α β : Type} [DecidableEq β] (key : α → β) :
    ∀ (xs : List α) (acc : List (β × List α)),
      ((xs.foldl (fun a x => addToGroup (key x) x a) acc).map Prod.fst) =
        xs.foldl (fun ks x => insertNew (key x) ks) (acc.map Prod.fst) := by
  intro xs
  induction xs with
  | nil => intro acc; rfl
  | cons x xs ih =>
    intro acc
    simp only [List.foldl_cons]
    rw [ih, addToGroup_map_fst]

end ResampleGroupEngine

/-- Claim C7: without an explicit ordering, group_by iterates its
output groups in first-seen key order — the order in which keys first
occur along the source dimension — which for the 24-month season
example is DJF, MAM, JJA, SON and differs from sorted-lexical order;
with an explicit caller-supplied ordering, reindex yields exactly one
entry per requested group, labeled with the group key, in the
supplied order. -/
theorem group_by_first_seen_order {α β : Type} [DecidableEq β] (key : α → β)
    (xs : List α) (order : List β) (gs : List (β × List α)) :
    ((ResampleGroupEngine.group_by key xs).map Prod.fst =
      ResampleGroupEngine.firstSeenKeys key xs) ∧
    ((ResampleGroupEngine.reindex order gs).map Prod.fst = order) ∧
    ((ResampleGroupEngine.reindex order gs).length = order.length) ∧
    ((ResampleGroupEngine.group_by ResampleGroupEngine.seasonOf
        (List.range 24)).map Prod.fst = ["DJF", "MAM", "JJA", "SON"]) ∧
    (ResampleGroupEngine.firstSeenKeys ResampleGroupEngine.seasonOf
        (List.range 24) ≠ ["DJF", "JJA", "MAM", "SON"]) := by
  refine ⟨ResampleGroupEngine.group_by_fold_fst key xs [], ?_, ?_, ?_, ?_⟩
  · simp [ResampleGroupEngine.reindex, Function.comp_def]
  · simp [ResampleGroupEngine.reindex]
  · decide
  · decide

/-! ## Multi-dimensional scalar selection -/

/-- Modelled from the spec (sections 3 and 4.4): the dimensional
shape of a LabeledArray — each axis is a dimension name together with
its coordinate label sequence; the axis extent is the label count. -/
structure LabeledArrayN where
  axes : List (String × List Int)

namespace LabeledArrayN

/-- The extent of a named dimension, none if the array lacks it. -/
def extent (a : LabeledArrayN) (d : String) : Option Nat :=
  (a.axes.find? (fun p => decide (p.1 = d))).map (fun p => p.2.length)

def hasDim (a : LabeledArrayN) (d : String) : Bool :=
  a.axes.any (fun p => decide (p.1 = d))

/-- Remove a dimension entirely from the array's shape. -/
def dropDim (a : LabeledArrayN) (d : String) : LabeledArrayN :=
  ⟨a.axes.filter (fun p => decide (p.1 ≠ d))⟩

/-- Modelled from the spec (section 4.4) and the notebook's scalar
DataArray.sel usage: selecting a single label value on a dimension
drops that dimension from the result. -/
def selScalar (a : LabeledArrayN) (d : String) (value : Int) :
    Except EngineError LabeledArrayN :=
  match a.axes.find? (fun p => decide (p.1 = d)) with
  | none => .error .UnknownDimension
  | some p =>
    if value ∈ p.2 then .ok (dropDim a d) else .error .KeyNotFound

/-- Modelled from the spec (section 4.1) and the notebook's
sel(..., method=nearest) usage: nearest-label scalar selection also
drops the dimension. -/
def selScalarNearest (a : LabeledArrayN) (d : String) (value : Int) :
    Except EngineError LabeledArrayN :=
  match a.axes.find? (fun p => decide (p.1 = d)) with
  | none => .error .UnknownDimension
  | some p =>
    match CoordinateRegistry.nearestIdx p.2 value with
    | none => .error .KeyNotFound
    | some _ => .ok (dropDim a d)

/-- Modelled from the spec (section 4.4) and the notebook's
isel(time=0) usage: scalar positional selection drops the
dimension. -/
def iselScalar (a : LabeledArrayN) (d : String) (i : Nat) :
    Except EngineError LabeledArrayN :=
  match a.axes.find? (fun p => decide (p.1 = d)) with
  | none => .error .UnknownDimension
  | some p =>
    if i < p.2.length then .ok (dropDim a d) else .error .ShapeMismatch

theorem find?_filter_ne (axes : List (String × List Int)) (d d2 : String)
    (hne : d2 ≠ d) :
    (axes.filter (fun p => decide (p.1 ≠ d))).find? (fun p => decide (p.1 = d2)) =
      axes.find? (fun p => decide (p.1 = d2)) := by
  have hfun : (fun a : String × List Int => !decide (a.1 = d) && decide (a.1 = d2)) =
      (fun p => decide (p.1 = d2)) := by
    funext a
    by_cases h2 : a.1 = d2
    · have hnd : ¬a.1 = d := by rw [h2]; exact hne
      simp [h2, hnd, hne]
    · simp [h2]
  induction axes with
  | nil => rfl
  | cons q rest ih =>
    by_cases hd : q.1 = d
    · simp only [List.filter_cons, List.find?_cons, hd]
      simp [Ne.symm hne]
      rw [hfun]
    · by_cases h2 : q.1 = d2
      · simp [List.filter_cons, List.find?_cons, hd, h2, hne]
      · simp only [List.filter_cons, List.find?_cons]
        simp [hd, h2]
        rw [hfun]

theorem dropDim_extent_none (a : LabeledArrayN) (d : String) :
    (a.dropDim d).extent d = none := by
  unfold dropDim extent
  rw [Option.map_eq_none', List.find?_eq_none]
  intro p hp
  have := List.of_mem_filter hp
  simp only [decide_eq_true_eq] at this ⊢
  exact this

theorem dropDim_extent_other (a : LabeledArrayN) (d d2 : String) (hne : d2 ≠ d) :
    (a.dropDim d).extent d2 = a.extent d2 := by
  unfold dropDim extent
  rw [find?_filter_ne a.axes d d2 hne]

end LabeledArrayN

/-- Claim C10: every scalar selection — by exact label, by nearest
label, or by integer position — drops the selected dimension from the
result entirely (its extent is no longer present, rather than kept
with length 1), while every other dimension's extent is unchanged. -/
theorem scalar_selection_drops_dim (a : LabeledArrayN) (d : String)
    (v : Int) (i : Nat) (r : LabeledArrayN)
    (h : a.selScalar d v = .ok r ∨ a.selScalarNearest d v = .ok r ∨
      a.iselScalar d i = .ok r) :
    r.extent d = none ∧ r.hasDim d = false ∧
    ∀ d2, d2 ≠ d → r.extent d2 = a.extent d2 := by
  have hr : r = a.dropDim d := by
    rcases h with h | h | h
    · unfold LabeledArrayN.selScalar at h
      split at h
      · exact Except.noConfusion h
      · split at h
        · exact (Except.ok.injEq _ _ ▸ h).symm
        · exact Except.noConfusion h
    · unfold LabeledArrayN.selScalarNearest at h
      split at h
      · exact Except.noConfusion h
      · split at h
        · exact Except.noConfusion h
        · exact (Except.ok.injEq _ _ ▸ h).symm
    · unfold LabeledArrayN.iselScalar at h
      split at h
      · exact Except.noConfusion h
      · split at h
        · exact (Except.ok.injEq _ _ ▸ h).symm
        · exact Except.noConfusion h
  subst hr
  refine ⟨LabeledArrayN.dropDim_extent_none a d, ?_,
    fun d2 hne => LabeledArrayN.dropDim_extent_other a d d2 hne⟩
  unfold LabeledArrayN.hasDim LabeledArrayN.dropDim
  rw [List.any_eq_false]
  intro p hp
  have := List.of_mem_filter hp
  simp only [decide_eq_true_eq] at this ⊢
  exact this

theorem scalar_selection_drops_dim_witness :
    (LabeledArrayN.mk [("lat", [5, 6])]).extent "time" = none ∧
    (LabeledArrayN.mk [("lat", [5, 6])]).hasDim "time" = false ∧
    ∀ d2, d2 ≠ "time" →
      (LabeledArrayN.mk [("lat", [5, 6])]).extent d2 =
        (LabeledArrayN.mk [("time", [0, 1, 2]), ("lat", [5, 6])]).extent d2 :=
  scalar_selection_drops_dim ⟨[("time", [0, 1, 2]), ("lat", [5, 6])]⟩ "time" 1 0
    ⟨[("lat", [5, 6])]⟩ (Or.inl rfl)

/-! ## Notebook: cat_to_ds -/

/-- A catalog search result row, as used by the notebook: the search
dataframe's zarr_path column. -/
structure CatalogRecord where
  zarr_path : String

/-- Embedded from src/notebooks/exn_intake.ipynb: cat_to_ds reads
cat.df with row 0 of the zarr_path column — the first matched record —
builds a mapper for that path and opens the zarr dataset there.
open_zarr stands for the external store (fsspec.get_mapper followed by
xr.open_zarr); none models the failure on an empty result frame. -/
def cat_to_ds {δ : Type} (open_zarr : String → δ) (cat : List CatalogRecord) :
    Option δ :=
  cat.head?.map (fun r => open_zarr r.zarr_path)

/-- Claim C9: on a catalog search result with at least one record,
cat_to_ds opens only the dataset at the first record's zarr_path, and
its result is unchanged by whatever other records the search matched
(deliberately matched ensemble members beyond the first are
ignored). -/
theorem cat_to_ds_first_record_only {δ : Type} (open_zarr : String → δ)
    (r : CatalogRecord) (rest other : List CatalogRecord) :
    cat_to_ds open_zarr (r :: rest) = some (open_zarr r.zarr_path) ∧
    cat_to_ds open_zarr (r :: rest) = cat_to_ds open_zarr (r :: other) :=
  ⟨rfl, rfl⟩

end Engine
